import Mathlib

/-!
Verification of the evo2 variant-effect scoring and calibration pipeline
(`evo2-backend/main.py`): window construction, sequence deduplication,
delta scoring, ROC-based threshold selection, and classification.

Genomic sequences are modelled as `List Char`; scores as rationals
(the Python floats are treated as exact reals; all the arithmetic the
claims are about is field arithmetic, comparisons, `min`, `max` and `abs`).
The scoring oracle (`model.score_sequences`) is external: it is modelled
as a parameter `scoreFn : Seq → ℚ` applied elementwise, which is the
spec's contract for it (order-preserving, one scalar per sequence).
-/

namespace Evo2

/-- A genomic sequence: an ordered list of bases. -/
abbrev Seq := List Char

/-- The external scoring oracle's batch interface `model.score_sequences`:
order-preserving, one scalar per input sequence. -/
def scoreSequences (scoreFn : Seq → ℚ) (seqs : List Seq) : List ℚ :=
  seqs.map scoreFn

/-! ### Window Builder, batch path (`run_brca1_analysis`, lines 104–112)

`p = row["pos"] - 1` is the 0-based position;
`ref_seq_start = max(0, p - WINDOW_SIZE//2)`,
`ref_seq_end = min(len(full_seq), p + WINDOW_SIZE//2)`,
`ref_seq = seq_chr17[ref_seq_start:ref_seq_end]`,
`snv_pos_in_ref = min(WINDOW_SIZE//2, p)`,
`var_seq = ref_seq[:snv_pos_in_ref] + row["alt"] + ref_seq[snv_pos_in_ref+1:]`. -/

/-- Constant `WINDOW_SIZE = 8192` of `run_brca1_analysis`. -/
def WINDOW_SIZE : Nat := 8192

/-- Source line `ref_seq_start = max(0, p - window_size//2)` for 0-based `p`. -/
def refSeqStart (windowSize p : Nat) : Int :=
  max 0 ((p : Int) - (windowSize / 2 : Nat))

/-- Source line `ref_seq_end = min(len(full_seq), p + window_size//2)`. -/
def refSeqEnd (fullSeq : Seq) (windowSize p : Nat) : Int :=
  min (fullSeq.length : Int) ((p : Int) + (windowSize / 2 : Nat))

/-- Source line `ref_seq = full_seq[ref_seq_start:ref_seq_end]` (Python slice with
non-negative bounds: drop the start, keep `end - start` elements). -/
def buildRefWindow (fullSeq : Seq) (windowSize p : Nat) : Seq :=
  (fullSeq.drop (refSeqStart windowSize p).toNat).take
    ((refSeqEnd fullSeq windowSize p) - (refSeqStart windowSize p)).toNat

/-- Source line `snv_pos_in_ref = min(WINDOW_SIZE//2, p)`. -/
def snvPosInRef (windowSize p : Nat) : Nat :=
  min (windowSize / 2) p

/-- Source line `var_seq = ref_seq[:i] + alt + ref_seq[i+1:]` — the single-base
substitution shared by lines 111–112 and lines 266–267. -/
def buildVarWindow (refSeq : Seq) (alt : Seq) (i : Nat) : Seq :=
  refSeq.take i ++ alt ++ refSeq.drop (i + 1)

/-! ### Classifier (`analyze_variant`, lines 265–291) -/

/-- The fields of the dict returned by `analyze_variant`. -/
structure AnalyzeResult where
  reference : Seq
  alternative : Seq
  delta_score : ℚ
  prediction : String
  classification_confidence : ℚ
  deriving Repr, DecidableEq

/-- Hard-coded default calibration threshold (line 274). -/
def defaultThreshold : ℚ := -0.0009178519

/-- Hard-coded default calibration `lof_std` (line 275). -/
def defaultLofStd : ℚ := 0.0015140239

/-- Hard-coded default calibration `func_std` (line 276). -/
def defaultFuncStd : ℚ := 0.0009016589

/-- Function `analyze_variant(relative_pos_in_window, reference, alternative,
window_seq, model)`: build the variant sequence, score both sequences
with the oracle, take the delta, and classify against the hard-coded
default calibration. -/
def analyze_variant (scoreFn : Seq → ℚ) (relative_pos_in_window : Nat)
    (reference alternative window_seq : Seq) : AnalyzeResult :=
  let var_seq := buildVarWindow window_seq alternative relative_pos_in_window
  let ref_score := (scoreSequences scoreFn [window_seq]).getD 0 0
  let var_score := (scoreSequences scoreFn [var_seq]).getD 0 0
  let delta_score := var_score - ref_score
  let threshold := defaultThreshold
  let lof_std := defaultLofStd
  let func_std := defaultFuncStd
  if delta_score < threshold then
    { reference := reference
      alternative := alternative
      delta_score := delta_score
      prediction := "Likely pathogenic"
      classification_confidence := min 1 (|delta_score - threshold| / lof_std) }
  else
    { reference := reference
      alternative := alternative
      delta_score := delta_score
      prediction := "Likely benign"
      classification_confidence := min 1 (|delta_score - threshold| / func_std) }

/-! ### Sequence Deduplication Index (`run_brca1_analysis`, lines 93–119)

`ref_seq_to_index` is a dict from sequence content to index, modelled as
an association list; `ref_seqs` is the arena of distinct sequences in
first-seen order. -/

/-- The mutable state `(ref_seq_to_index, ref_seqs)` of the deduplication
scan. -/
structure DedupState where
  toIndex : List (Seq × Nat)
  arena : List Seq
  deriving Repr

/-- The empty initial state (`ref_seqs = []`, `ref_seq_to_index = {}`). -/
def DedupState.empty : DedupState := ⟨[], []⟩

/-- One step of the scan (lines 114–119): if `s` is not in the map, bind it
to `len(ref_seqs)` and append `s` to the arena; then return the mapped
index. -/
def intern (st : DedupState) (s : Seq) : Nat × DedupState :=
  match st.toIndex.lookup s with
  | some i => (i, st)
  | none => (st.arena.length,
      ⟨st.toIndex ++ [(s, st.arena.length)], st.arena ++ [s]⟩)

/-- Interning a whole list in order, collecting the assigned indices
(`ref_seq_indexes`). -/
def internAll (st : DedupState) : List Seq → List Nat × DedupState
  | [] => ([], st)
  | s :: rest =>
    let r := intern st s
    let r' := internAll r.2 rest
    (r.1 :: r'.1, r'.2)

/-- Position of the first occurrence of `s` in a list of sequences
(`none` when absent) — the specification-side view of the dict
`ref_seq_to_index`. -/
def posOf (s : Seq) : List Seq → Option Nat
  | [] => none
  | x :: xs => if x = s then some 0 else (posOf s xs).map (· + 1)

/-- The sequences of `l` that are new relative to the accumulator `acc`,
kept in first-seen order, once each. -/
def newSeen (acc : List Seq) : List Seq → List Seq
  | [] => []
  | x :: xs => if x ∈ acc then newSeen acc xs else x :: newSeen (acc ++ [x]) xs

/-- The distinct sequences of `l` in first-seen order. -/
def firstSeen (l : List Seq) : List Seq := newSeen [] l

/-- Invariant of the deduplication scan: the arena holds no duplicates and
the dict maps each content to its (first) position in the arena. -/
def WF (st : DedupState) : Prop :=
  st.arena.Nodup ∧ ∀ s, st.toIndex.lookup s = posOf s st.arena

/-- Value `ref_seq_indexes`: the indices assigned by the deduplication scan over
the reference windows, in input order. -/
def refSeqIndexes (xs : List Seq) : List Nat :=
  (internAll DedupState.empty xs).1

/-- Value `ref_seqs`: the arena of deduplicated reference windows after the
scan. -/
def refSeqs (xs : List Seq) : List Seq :=
  (internAll DedupState.empty xs).2.arena

/-! ### Delta Score Calculator -/

/-- Batch mode (line 133):
`delta_scores = np.array(var_scores) - np.array(ref_scores)[ref_seq_indexes]`
— fancy indexing followed by elementwise subtraction. -/
def deltaScoresBatch (varScores refScores : List ℚ) (refIdx : List Nat) : List ℚ :=
  varScores.zipWith (fun v j => v - refScores.getD j 0) refIdx

/-! ### Calibration Engine (`run_brca1_analysis`, lines 138–162)

The ROC sweep itself (`sklearn.roc_curve`) is an external library call;
its outputs `fpr, tpr, thresholds` (three equal-length arrays swept over
negated delta scores) are taken as inputs here. The repository's own code
is the selection on top of the sweep: `optimal_idx = (tpr - fpr).argmax()`
and `optimal_threshold = -thresholds[optimal_idx]`, and the per-class
spreads via pandas `.std()`. -/

/-- Model of `numpy.argmax`: index of the maximum value; on ties, the FIRST
occurrence in array order. `argmax [] = 0` (numpy raises there; no claim
touches the empty case). -/
def argmax : List ℚ → Nat
  | [] => 0
  | [_] => 0
  | x :: y :: xs =>
    let j := argmax (y :: xs)
    if x < (y :: xs).getD j 0 then j + 1 else 0

/-- Source line `optimal_idx = (tpr - fpr).argmax()` (line 146). -/
def optimalIdx (tpr fpr : List ℚ) : Nat :=
  argmax (tpr.zipWith (fun t f => t - f) fpr)

/-- Source line `optimal_threshold = -thresholds[optimal_idx]` (line 148). -/
def optimalThreshold (tpr fpr thresholds : List ℚ) : ℚ :=
  -(thresholds.getD (optimalIdx tpr fpr) 0)

/-- pandas `Series.std()` with the default `ddof = 1`, carried as its
square (the sample variance), since the square root leaves ℚ; the code
takes the square root of exactly this value. `none` models the `NaN` that
pandas returns when fewer than 2 values are present (for finite inputs,
`.std()` is `NaN` exactly when `n < 2`); the code raises nothing here. -/
def sampleStdSq (l : List ℚ) : Option ℚ :=
  if l.length < 2 then none
  else
    let n : ℚ := l.length
    let mean := l.sum / n
    some ((l.map (fun x => (x - mean) ^ 2)).sum / (n - 1))

/-- The `confidence_params` dict built at lines 158–162, with each
`std` carried as its square (see `sampleStdSq`). -/
structure ConfidenceParams where
  threshold : ℚ
  lof_std_sq : Option ℚ
  func_std_sq : Option ℚ
  deriving Repr, DecidableEq

/-- Lines 142–162 of `run_brca1_analysis`: given the ROC sweep outputs and
the labeled delta scores (`isLOF i = true` iff row `i` has class `"LOF"`),
select the threshold and the two per-class spreads. The code performs no
validation of the inputs and raises no error. -/
def calibrate (tpr fpr thresholds : List ℚ) (deltas : List ℚ)
    (isLOF : List Bool) : ConfidenceParams :=
  let lofScores := ((deltas.zip isLOF).filter (fun r => r.2)).map Prod.fst
  let funcScores := ((deltas.zip isLOF).filter (fun r => !r.2)).map Prod.fst
  { threshold := optimalThreshold tpr fpr thresholds
    lof_std_sq := sampleStdSq lofScores
    func_std_sq := sampleStdSq funcScores }

/-! ### Genome sequence fetcher (`get_genome_sequence`, lines 230–263) -/

/-- The parsed UCSC API response: HTTP status, the optional `"dna"` JSON
field, and the optional `"error"` JSON field. -/
structure UcscResponse where
  status_code : Nat
  dna : Option Seq
  error : Option String
  deriving Repr

/-- Source line `half_window = window_size // 2`. -/
def halfWindow (windowSize : Nat) : Nat := windowSize / 2

/-- Source line `start = max(0, position - 1 - half_window)` (line 234). -/
def fetchStart (position : Int) (windowSize : Nat) : Int :=
  max 0 (position - 1 - halfWindow windowSize)

/-- Source line `end = position - 1 + half_window + 1` (line 235). -/
def fetchEnd (position : Int) (windowSize : Nat) : Int :=
  position - 1 + halfWindow windowSize + 1

/-- Function `get_genome_sequence` after the HTTP exchange, on a parsed response:
non-200 status raises; a missing `"dna"` field raises the
`"UCSC API error"`; otherwise the upper-cased sequence is returned
together with `start` — a length shorter than `end - start` only prints a
warning and the (possibly short, possibly empty) sequence is still
returned. -/
def get_genome_sequence (position : Int) (windowSize : Nat)
    (resp : UcscResponse) : Except String (Seq × Int) :=
  if resp.status_code ≠ 200 then
    .error "Failed to fetch genome sequence from UCSC API"
  else
    match resp.dna with
    | none => .error ("UCSC API error: " ++ resp.error.getD "Unknown error")
    | some s => .ok (s.map Char.toUpper, fetchStart position windowSize)

/-! ### Single-variant endpoint (`Evo2Model.analyze_single_variant`,
lines 302–346) -/

/-- The endpoint body after the fetch: compute
`relative_pos = variant_position - 1 - seq_start`, validate it against the
fetched window before any oracle call, read off the reference base, and
delegate to `analyze_variant`. The fetch result `(window_seq, seq_start)`
is a parameter, as is the scoring oracle. -/
def analyze_single_variant (scoreFn : Seq → ℚ) (variant_position : Int)
    (alternative : Seq) (window_seq : Seq) (seq_start : Int) :
    Except String AnalyzeResult :=
  let relative_pos := variant_position - 1 - seq_start
  if relative_pos < 0 ∨ relative_pos ≥ (window_seq.length : Int) then
    .error "Variant position is outside the fetched window"
  else
    let reference := (window_seq.drop relative_pos.toNat).take 1
    .ok (analyze_variant scoreFn relative_pos.toNat
      reference alternative window_seq)

/-! ## Theorems -/

/-- C1: for every delta score reachable through the single-variant path
(`analyze_variant` with an arbitrary oracle), with the hard-coded default
calibration: if `delta_score < threshold` the prediction is
`"Likely pathogenic"` with `confidence = min(1, |delta - threshold| / lof_std)`;
otherwise it is `"Likely benign"` with
`confidence = min(1, |delta - threshold| / func_std)`; in both cases the
confidence lies in `[0, 1]`. -/
theorem classifier_default_calibration (scoreFn : Seq → ℚ) (relPos : Nat)
    (ref alt window : Seq) :
    ((analyze_variant scoreFn relPos ref alt window).delta_score < defaultThreshold →
      (analyze_variant scoreFn relPos ref alt window).prediction = "Likely pathogenic" ∧
      (analyze_variant scoreFn relPos ref alt window).classification_confidence =
        min 1 (|(analyze_variant scoreFn relPos ref alt window).delta_score -
          defaultThreshold| / defaultLofStd)) ∧
    (¬ (analyze_variant scoreFn relPos ref alt window).delta_score < defaultThreshold →
      (analyze_variant scoreFn relPos ref alt window).prediction = "Likely benign" ∧
      (analyze_variant scoreFn relPos ref alt window).classification_confidence =
        min 1 (|(analyze_variant scoreFn relPos ref alt window).delta_score -
          defaultThreshold| / defaultFuncStd)) ∧
    0 ≤ (analyze_variant scoreFn relPos ref alt window).classification_confidence ∧
    (analyze_variant scoreFn relPos ref alt window).classification_confidence ≤ 1 := by
  have hlof : (0 : ℚ) < defaultLofStd := by norm_num [defaultLofStd]
  have hfunc : (0 : ℚ) < defaultFuncStd := by norm_num [defaultFuncStd]
  unfold analyze_variant
  by_cases h :
      (scoreSequences scoreFn
          [buildVarWindow window alt relPos]).getD 0 0 -
        (scoreSequences scoreFn [window]).getD 0 0 < defaultThreshold
  · simp only [if_pos h]
    refine ⟨fun _ => by constructor <;> trivial, fun hc => absurd h hc, ?_, ?_⟩
    · exact le_min (by norm_num) (div_nonneg (abs_nonneg _) hlof.le)
    · exact min_le_left _ _
  · simp only [if_neg h]
    refine ⟨fun hc => absurd hc h, fun _ => by constructor <;> trivial, ?_, ?_⟩
    · exact le_min (by norm_num) (div_nonneg (abs_nonneg _) hfunc.le)
    · exact min_le_left _ _

/-- Witness for C1: a zero-scoring oracle yields `delta_score = 0`, which is
not below the default threshold, so the classifier predicts benign. -/
theorem classifier_default_calibration_witness :
    (analyze_variant (fun _ => 0) 0 [] ['G'] ['A', 'C']).prediction = "Likely benign" :=
  ((classifier_default_calibration (fun _ => 0) 0 [] ['G'] ['A', 'C']).2.1
    (by norm_num [analyze_variant, scoreSequences, defaultThreshold])).1

/-- C2: for every 0-based position `p < L` in a whole-chromosome source
sequence, the batch window builder produces exactly the slice
`source[max(0, p - ws/2) : min(L, p + ws/2)]` (integer half-window), the
relative position `min(ws/2, p)` is a valid in-bounds index of that
window, and the window base there equals the source base at `p` —
including positions within `ws/2` of either end of the sequence. -/
theorem batch_window_positions (source : Seq) (windowSize p : Nat)
    (hw : 2 ≤ windowSize) (hp : p < source.length) :
    buildRefWindow source windowSize p =
      (source.drop (p - windowSize / 2)).take
        (min source.length (p + windowSize / 2) - (p - windowSize / 2)) ∧
    snvPosInRef windowSize p < (buildRefWindow source windowSize p).length ∧
    (buildRefWindow source windowSize p)[snvPosInRef windowSize p]? = source[p]? := by
  have hstart : (refSeqStart windowSize p).toNat = p - windowSize / 2 := by
    unfold refSeqStart; omega
  have hlen : (refSeqEnd source windowSize p - refSeqStart windowSize p).toNat =
      min source.length (p + windowSize / 2) - (p - windowSize / 2) := by
    unfold refSeqStart refSeqEnd; omega
  have hslice : buildRefWindow source windowSize p =
      (source.drop (p - windowSize / 2)).take
        (min source.length (p + windowSize / 2) - (p - windowSize / 2)) := by
    unfold buildRefWindow
    rw [hstart, hlen]
  have hhalf : 1 ≤ windowSize / 2 := by omega
  have hrel : snvPosInRef windowSize p <
      min source.length (p + windowSize / 2) - (p - windowSize / 2) := by
    unfold snvPosInRef; omega
  refine ⟨hslice, ?_, ?_⟩
  · rw [hslice]
    simp only [List.length_take, List.length_drop]
    unfold snvPosInRef at hrel ⊢
    omega
  · rw [hslice, List.getElem?_take_of_lt hrel, List.getElem?_drop]
    congr 1
    unfold snvPosInRef
    omega

/-- Witness for C2: a position at the very start of a short chromosome
(`p = 1`, length 4, window size 8192) still yields an in-bounds relative
position addressing the right base. -/
theorem batch_window_positions_witness :
    buildRefWindow ['A', 'C', 'G', 'T'] 8192 1 =
      ((['A', 'C', 'G', 'T'] : Seq).drop (1 - 8192 / 2)).take
        (min (['A', 'C', 'G', 'T'] : Seq).length (1 + 8192 / 2) - (1 - 8192 / 2)) ∧
    snvPosInRef 8192 1 < (buildRefWindow ['A', 'C', 'G', 'T'] 8192 1).length ∧
    (buildRefWindow ['A', 'C', 'G', 'T'] 8192 1)[snvPosInRef 8192 1]? =
      (['A', 'C', 'G', 'T'] : Seq)[1]? :=
  batch_window_positions ['A', 'C', 'G', 'T'] 8192 1 (by decide) (by decide)

/-- C3: for every reference window, single-character alternative base and
in-bounds relative position, the variant window has the same length as
the reference window, equals the alternative base at the relative
position, and equals the reference window at every other index. -/
theorem variant_window_single_substitution (ref : Seq) (c : Char) (i : Nat)
    (hi : i < ref.length) :
    (buildVarWindow ref [c] i).length = ref.length ∧
    (buildVarWindow ref [c] i)[i]? = some c ∧
    ∀ j, j ≠ i → (buildVarWindow ref [c] i)[j]? = ref[j]? := by
  have htake : (ref.take i).length = i := by
    simp [List.length_take]; omega
  refine ⟨?_, ?_, ?_⟩
  · unfold buildVarWindow
    simp [List.length_append, List.length_take, List.length_drop]
    omega
  · unfold buildVarWindow
    rw [List.append_assoc,
      List.getElem?_append_right (by omega : (ref.take i).length ≤ i), htake,
      Nat.sub_self, List.singleton_append, List.getElem?_cons_zero]
  · intro j hj
    unfold buildVarWindow
    rw [List.append_assoc]
    rcases Nat.lt_or_ge j i with hlt | hge
    · rw [List.getElem?_append_left (by omega : j < (ref.take i).length)]
      exact List.getElem?_take_of_lt hlt
    · have hgt : i < j := lt_of_le_of_ne hge (Ne.symm hj)
      rw [List.getElem?_append_right (by omega : (ref.take i).length ≤ j), htake]
      have h1 : j - i = (j - i - 1) + 1 := by omega
      rw [List.singleton_append, h1, List.getElem?_cons_succ, List.getElem?_drop]
      congr 1
      omega

/-- Witness for C3: substituting `G` at index 1 of `ACGT`. -/
theorem variant_window_single_substitution_witness :
    (buildVarWindow ['A', 'C', 'G', 'T'] ['G'] 1).length =
      (['A', 'C', 'G', 'T'] : Seq).length ∧
    (buildVarWindow ['A', 'C', 'G', 'T'] ['G'] 1)[1]? = some 'G' ∧
    ∀ j, j ≠ 1 →
      (buildVarWindow ['A', 'C', 'G', 'T'] ['G'] 1)[j]? =
        (['A', 'C', 'G', 'T'] : Seq)[j]? :=
  variant_window_single_substitution ['A', 'C', 'G', 'T'] 'G' 1 (by decide)

/-! ### Deduplication-index lemmas -/

theorem posOf_eq_none_iff (s : Seq) (l : List Seq) : posOf s l = none ↔ s ∉ l := by
  induction l with
  | nil => simp [posOf]
  | cons x xs ih =>
    simp only [posOf, List.mem_cons]
    by_cases hx : x = s
    · simp [hx]
    · rw [if_neg hx, Option.map_eq_none', ih]
      simp only [not_or]
      exact ⟨fun h => ⟨fun hs => hx hs.symm, h⟩, fun h => h.2⟩

theorem posOf_spec (s : Seq) (l : List Seq) (i : Nat) (h : posOf s l = some i) :
    i < l.length ∧ l[i]? = some s := by
  induction l generalizing i with
  | nil => simp [posOf] at h
  | cons x xs ih =>
    simp only [posOf] at h
    by_cases hx : x = s
    · rw [if_pos hx] at h
      obtain rfl : (0 : Nat) = i := Option.some_inj.mp h
      simp [hx]
    · rw [if_neg hx] at h
      rcases Option.map_eq_some'.mp h with ⟨j, hj, rfl⟩
      obtain ⟨h1, h2⟩ := ih j hj
      exact ⟨by simpa using Nat.succ_lt_succ h1, by simpa using h2⟩

theorem posOf_append_left {s : Seq} {l₁ : List Seq} (l₂ : List Seq) {i : Nat}
    (h : posOf s l₁ = some i) : posOf s (l₁ ++ l₂) = some i := by
  induction l₁ generalizing i with
  | nil => simp [posOf] at h
  | cons x xs ih =>
    simp only [posOf, List.cons_append, List.append_eq] at h ⊢
    by_cases hx : x = s
    · rw [if_pos hx] at h ⊢; exact h
    · rw [if_neg hx] at h ⊢
      rcases Option.map_eq_some'.mp h with ⟨j, hj, rfl⟩
      rw [ih hj]
      rfl

theorem posOf_append_of_not_mem {s : Seq} {l₁ : List Seq} (l₂ : List Seq)
    (h : s ∉ l₁) : posOf s (l₁ ++ l₂) = (posOf s l₂).map (· + l₁.length) := by
  induction l₁ with
  | nil =>
    simp only [List.nil_append, List.length_nil]
    cases posOf s l₂ <;> simp
  | cons x xs ih =>
    have hx : ¬ x = s := fun he => h (by simp [he])
    simp only [List.cons_append, List.append_eq, posOf, if_neg hx]
    rw [ih (fun hm => h (List.mem_cons_of_mem _ hm))]
    cases posOf s l₂ with
    | none => simp
    | some j => simp [List.length_cons]; omega

theorem posOf_append_self (s : Seq) (l : List Seq) (h : s ∉ l) :
    posOf s (l ++ [s]) = some l.length := by
  rw [posOf_append_of_not_mem _ h]
  simp [posOf]

theorem posOf_getD_of_nodup (l : List Seq) (hl : l.Nodup) (i : Nat)
    (hi : i < l.length) : posOf (l.getD i []) l = some i := by
  induction l generalizing i with
  | nil => simp at hi
  | cons x xs ih =>
    rcases i with _ | j
    · simp [posOf]
    · have hj : j < xs.length := by simpa using hi
      have hmem : xs.getD j [] ∈ xs := by
        rw [List.getD_eq_getElem?_getD, List.getElem?_eq_getElem hj]
        exact List.getElem_mem hj
      have hx : ¬ x = xs.getD j [] := fun he =>
        (List.nodup_cons.mp hl).1 (he ▸ hmem)
      simp only [posOf, List.getD_cons_succ, if_neg hx]
      rw [ih (List.nodup_cons.mp hl).2 j hj]
      rfl

theorem intern_wf_behavior (st : DedupState) (s : Seq) (h : WF st) :
    WF (intern st s).2 ∧
    (intern st s).2.arena = (if s ∈ st.arena then st.arena else st.arena ++ [s]) ∧
    posOf s (intern st s).2.arena = some (intern st s).1 := by
  obtain ⟨hnd, hlk⟩ := h
  unfold intern
  cases hl : st.toIndex.lookup s with
  | some i =>
    have hpos : posOf s st.arena = some i := (hlk s).symm.trans hl
    have hmem : s ∈ st.arena := by
      rcases posOf_spec s st.arena i hpos with ⟨_, h2⟩
      exact List.mem_iff_getElem?.mpr ⟨i, h2⟩
    simp only []
    exact ⟨⟨hnd, hlk⟩, by rw [if_pos hmem], hpos⟩
  | none =>
    have hnot : s ∉ st.arena := (posOf_eq_none_iff s st.arena).mp ((hlk s).symm.trans hl)
    simp only []
    refine ⟨⟨?_, ?_⟩, by rw [if_neg hnot], ?_⟩
    · exact List.nodup_append.mpr ⟨hnd, List.nodup_singleton s,
        by simpa [List.disjoint_singleton] using hnot⟩
    · intro t
      rw [List.lookup_append, hlk t]
      cases hp : posOf t st.arena with
      | some j =>
        simp only [Option.or_some]
        exact (posOf_append_left [s] hp).symm
      | none =>
        have htn : t ∉ st.arena := (posOf_eq_none_iff t st.arena).mp hp
        rw [posOf_append_of_not_mem [s] htn]
        by_cases hts : s = t
        · subst hts
          simp [posOf, List.lookup]
        · simp only [Option.none_or]
          have : (t == s) = false := by
            simp [beq_eq_false_iff_ne]
            exact fun he => hts he.symm
          simp [List.lookup, this, posOf, hts]
    · exact posOf_append_self s st.arena hnot

theorem internAll_wf_arena (st : DedupState) (xs : List Seq) (h : WF st) :
    WF (internAll st xs).2 ∧
    (internAll st xs).2.arena = st.arena ++ newSeen st.arena xs := by
  induction xs generalizing st with
  | nil => exact ⟨by simpa [internAll] using h, by simp [internAll, newSeen]⟩
  | cons x rest ih =>
    obtain ⟨hwf, harena, _⟩ := intern_wf_behavior st x h
    obtain ⟨hwf', harena'⟩ := ih (intern st x).2 hwf
    simp only [internAll]
    refine ⟨hwf', ?_⟩
    rw [harena', harena]
    by_cases hm : x ∈ st.arena
    · simp [newSeen, hm]
    · simp [newSeen, hm, List.append_assoc]

theorem internAll_length (st : DedupState) (xs : List Seq) :
    (internAll st xs).1.length = xs.length := by
  induction xs generalizing st with
  | nil => rfl
  | cons x rest ih => simp [internAll, ih]

theorem internAll_indices (st : DedupState) (xs : List Seq) (h : WF st) :
    ∀ k, k < xs.length →
      (internAll st xs).1[k]? =
        posOf (xs.getD k []) (internAll st xs).2.arena := by
  induction xs generalizing st with
  | nil => intro k hk; simp at hk
  | cons x rest ih =>
    intro k hk
    obtain ⟨hwf, _, hpos⟩ := intern_wf_behavior st x h
    have hpre : (internAll (intern st x).2 rest).2.arena =
        (intern st x).2.arena ++ newSeen (intern st x).2.arena rest :=
      (internAll_wf_arena _ _ hwf).2
    simp only [internAll]
    rcases k with _ | k'
    · simp only [List.getElem?_cons_zero, List.getD_cons_zero]
      rw [hpre]
      exact (posOf_append_left _ hpos).symm
    · simp only [List.getElem?_cons_succ, List.getD_cons_succ]
      exact ih (intern st x).2 hwf k' (by simpa using hk)

theorem newSeen_append (acc l₁ l₂ : List Seq) :
    newSeen acc (l₁ ++ l₂) = newSeen acc l₁ ++ newSeen (acc ++ newSeen acc l₁) l₂ := by
  induction l₁ generalizing acc with
  | nil => simp [newSeen]
  | cons x xs ih =>
    by_cases hm : x ∈ acc
    · simp [newSeen, hm, ih]
    · simp only [List.cons_append, List.append_eq, newSeen, if_neg hm]
      rw [ih]
      simp [List.append_assoc]

theorem mem_newSeen (acc l : List Seq) (s : Seq) :
    s ∈ newSeen acc l ↔ s ∈ l ∧ s ∉ acc := by
  induction l generalizing acc with
  | nil => simp [newSeen]
  | cons x xs ih =>
    by_cases hm : x ∈ acc
    · rw [newSeen, if_pos hm, ih]
      simp only [List.mem_cons]
      constructor
      · rintro ⟨h1, h2⟩; exact ⟨Or.inr h1, h2⟩
      · rintro ⟨h1 | h1, h2⟩
        · exact absurd (h1 ▸ hm) h2
        · exact ⟨h1, h2⟩
    · rw [newSeen, if_neg hm]
      simp only [List.mem_cons, ih, List.mem_append, List.mem_singleton, not_or]
      constructor
      · rintro (rfl | ⟨h1, h2, h3⟩)
        · exact ⟨Or.inl rfl, hm⟩
        · exact ⟨Or.inr h1, h2⟩
      · rintro ⟨rfl | h1, h2⟩
        · exact Or.inl rfl
        · by_cases hsx : s = x
          · exact Or.inl hsx
          · exact Or.inr ⟨h1, h2, hsx, List.not_mem_nil s⟩

theorem nodup_acc_newSeen (acc l : List Seq) (h : acc.Nodup) :
    (acc ++ newSeen acc l).Nodup := by
  induction l generalizing acc with
  | nil => simpa [newSeen]
  | cons x xs ih =>
    by_cases hm : x ∈ acc
    · simpa [newSeen, hm] using ih acc h
    · have h' : (acc ++ [x]).Nodup :=
        List.nodup_append.mpr ⟨h, List.nodup_singleton x,
          by simpa [List.disjoint_singleton] using hm⟩
      have := ih (acc ++ [x]) h'
      simpa [newSeen, hm, List.append_assoc] using this

/-- C4: the deduplication index is a function of first-seen order — after
the scan the arena lists the distinct sequences in first-seen order once
each; each input is assigned an in-bounds index whose arena entry holds
its content; equal contents get equal indices (re-interning returns the
previously assigned index); every arena index `0..k-1` is assigned; and a
sequence that has not been seen before receives an index equal to the
number of distinct sequences interned before it. -/
theorem dedup_index_spec (xs : List Seq) :
    refSeqs xs = firstSeen xs ∧
    (refSeqs xs).Nodup ∧
    (refSeqIndexes xs).length = xs.length ∧
    (∀ j, j < xs.length →
      (refSeqIndexes xs).getD j 0 < (refSeqs xs).length ∧
      (refSeqs xs)[(refSeqIndexes xs).getD j 0]? = xs[j]?) ∧
    (∀ j j', j < xs.length → j' < xs.length → xs[j]? = xs[j']? →
      (refSeqIndexes xs).getD j 0 = (refSeqIndexes xs).getD j' 0) ∧
    (∀ i, i < (refSeqs xs).length →
      ∃ j, j < xs.length ∧ (refSeqIndexes xs).getD j 0 = i) ∧
    (∀ j, j < xs.length → xs.getD j [] ∉ xs.take j →
      (refSeqIndexes xs).getD j 0 = (firstSeen (xs.take j)).length) := by
  have hwf0 : WF DedupState.empty := by
    refine ⟨List.nodup_nil, fun s => rfl⟩
  obtain ⟨hwf, harena⟩ := internAll_wf_arena DedupState.empty xs hwf0
  have harena' : refSeqs xs = firstSeen xs := by
    unfold refSeqs firstSeen
    simpa [DedupState.empty] using harena
  have hnodup : (refSeqs xs).Nodup := hwf.1
  have hidx := internAll_indices DedupState.empty xs hwf0
  have hkey : ∀ j, j < xs.length →
      (refSeqIndexes xs)[j]? = posOf (xs.getD j []) (refSeqs xs) := fun j hj =>
    hidx j hj
  have hval : ∀ j, j < xs.length → ∃ i,
      posOf (xs.getD j []) (refSeqs xs) = some i ∧
      (refSeqIndexes xs).getD j 0 = i := by
    intro j hj
    cases hp : posOf (xs.getD j []) (refSeqs xs) with
    | none =>
      exfalso
      have hmem : xs.getD j [] ∈ xs := by
        rw [List.getD_eq_getElem?_getD, List.getElem?_eq_getElem hj]
        exact List.getElem_mem hj
      have : xs.getD j [] ∈ refSeqs xs := by
        rw [harena']
        exact (mem_newSeen [] xs _).mpr ⟨hmem, by simp⟩
      exact (posOf_eq_none_iff _ _).mp hp this
    | some i =>
      refine ⟨i, rfl, ?_⟩
      rw [List.getD_eq_getElem?_getD, hkey j hj, hp]
      rfl
  refine ⟨harena', hnodup, internAll_length _ _, ?_, ?_, ?_, ?_⟩
  · intro j hj
    obtain ⟨i, hp, hgd⟩ := hval j hj
    obtain ⟨h1, h2⟩ := posOf_spec _ _ _ hp
    rw [hgd]
    refine ⟨h1, ?_⟩
    rw [h2, List.getElem?_eq_getElem hj]
    rw [List.getD_eq_getElem?_getD, List.getElem?_eq_getElem hj]
    rfl
  · intro j j' hj hj' heq
    obtain ⟨i, hp, hgd⟩ := hval j hj
    obtain ⟨i', hp', hgd'⟩ := hval j' hj'
    have hsame : xs.getD j [] = xs.getD j' [] := by
      rw [List.getD_eq_getElem?_getD, List.getD_eq_getElem?_getD, heq]
    rw [hgd, hgd']
    rw [hsame] at hp
    exact Option.some_inj.mp (hp.symm.trans hp')
  · intro i hi
    have hp : posOf ((refSeqs xs).getD i []) (refSeqs xs) = some i :=
      posOf_getD_of_nodup _ hnodup i hi
    have hmem : (refSeqs xs).getD i [] ∈ refSeqs xs := by
      rw [List.getD_eq_getElem?_getD, List.getElem?_eq_getElem hi]
      exact List.getElem_mem hi
    have hmemxs : (refSeqs xs).getD i [] ∈ xs := by
      have h2 : (refSeqs xs).getD i [] ∈ firstSeen xs := by
        rw [← harena']; exact hmem
      exact ((mem_newSeen [] xs _).mp h2).1
    obtain ⟨j, hj, hji⟩ := List.mem_iff_getElem.mp hmemxs
    refine ⟨j, hj, ?_⟩
    obtain ⟨i'', hp'', hgd''⟩ := hval j hj
    have hgdj : xs.getD j [] = (refSeqs xs).getD i [] := by
      rw [List.getD_eq_getElem?_getD, List.getElem?_eq_getElem hj]
      exact hji
    rw [hgdj] at hp''
    rw [hgd'']
    exact Option.some_inj.mp (hp''.symm.trans hp)
  · intro j hj hnew
    obtain ⟨i, hp, hgd⟩ := hval j hj
    have hdecomp : xs = xs.take j ++ (xs.getD j [] :: xs.drop (j + 1)) := by
      rw [List.getD_eq_getElem?_getD, List.getElem?_eq_getElem hj]
      simp only [Option.getD_some]
      rw [← List.drop_eq_getElem_cons hj, List.take_append_drop]
    have hsplit : firstSeen xs =
        firstSeen (xs.take j) ++
          newSeen ([] ++ newSeen [] (xs.take j)) (xs.getD j [] :: xs.drop (j + 1)) := by
      conv_lhs => rw [hdecomp]
      exact newSeen_append [] (xs.take j) _
    have hnotacc : xs.getD j [] ∉ firstSeen (xs.take j) := by
      intro hc
      exact hnew ((mem_newSeen [] (xs.take j) _).mp hc).1
    have hhead : newSeen ([] ++ newSeen [] (xs.take j)) (xs.getD j [] :: xs.drop (j + 1)) =
        xs.getD j [] :: newSeen (([] ++ newSeen [] (xs.take j)) ++ [xs.getD j []])
          (xs.drop (j + 1)) := by
      rw [newSeen]
      rw [if_neg (by simpa using hnotacc)]
    have hposform : posOf (xs.getD j []) (firstSeen xs) =
        some (firstSeen (xs.take j)).length := by
      rw [hsplit, hhead, posOf_append_of_not_mem _ hnotacc]
      simp [posOf]
    rw [hgd]
    rw [harena'] at hp
    exact Option.some_inj.mp (hp.symm.trans hposform)

/-- Witness for C4: interning `[AA, CC, AA, GG]` assigns indices
`[0, 1, 0, 2]` over the arena `[AA, CC, GG]`. -/
theorem dedup_index_spec_witness :
    refSeqs [['A', 'A'], ['C', 'C'], ['A', 'A'], ['G', 'G']] =
      firstSeen [['A', 'A'], ['C', 'C'], ['A', 'A'], ['G', 'G']] ∧
    (refSeqIndexes [['A', 'A'], ['C', 'C'], ['A', 'A'], ['G', 'G']]).getD 2 0 =
      (refSeqIndexes [['A', 'A'], ['C', 'C'], ['A', 'A'], ['G', 'G']]).getD 0 0 :=
  ⟨(dedup_index_spec _).1,
    (dedup_index_spec _).2.2.2.2.1 2 0 (by decide) (by decide) (by decide)⟩

/-- C5: in batch mode the delta score of variant `i` is
`variant_scores[i] - reference_scores[reference_index_of(i)]`, and in
single-variant mode the delta score is the oracle score of the variant
sequence minus the oracle score of the reference sequence. -/
theorem delta_scores_spec (varScores refScores : List ℚ) (refIdx : List Nat)
    (i : Nat) (hi : i < varScores.length) (hlen : refIdx.length = varScores.length)
    (scoreFn : Seq → ℚ) (relPos : Nat) (ref alt window : Seq) :
    (deltaScoresBatch varScores refScores refIdx)[i]? =
      some (varScores.getD i 0 - refScores.getD (refIdx.getD i 0) 0) ∧
    (analyze_variant scoreFn relPos ref alt window).delta_score =
      scoreFn (buildVarWindow window alt relPos) - scoreFn window := by
  constructor
  · have hi' : i < refIdx.length := by omega
    have h1 : varScores[i]? = some varScores[i] := List.getElem?_eq_getElem hi
    have h2 : refIdx[i]? = some refIdx[i] := List.getElem?_eq_getElem hi'
    unfold deltaScoresBatch
    rw [List.getElem?_zipWith, h1, h2]
    simp [List.getD_eq_getElem?_getD, h1, h2]
  · unfold analyze_variant scoreSequences
    rw [apply_ite AnalyzeResult.delta_score]
    simp

/-- Witness for C5 at concrete scores: `delta[0] = 10 - refScores[1] = 8`,
and the single-mode delta under a zero oracle is `0 - 0`. -/
theorem delta_scores_spec_witness :
    (deltaScoresBatch [10, 20] [1, 2] [1, 0])[0]? =
      some (([10, 20] : List ℚ).getD 0 0 -
        ([1, 2] : List ℚ).getD (([1, 0] : List Nat).getD 0 0) 0) ∧
    (analyze_variant (fun _ => 0) 0 [] ['G'] ['A', 'C']).delta_score =
      (fun _ => (0 : ℚ)) (buildVarWindow ['A', 'C'] ['G'] 0) -
        (fun _ => (0 : ℚ)) ['A', 'C'] :=
  delta_scores_spec [10, 20] [1, 2] [1, 0] 0 (by decide) (by decide)
    (fun _ => 0) 0 [] ['G'] ['A', 'C']

/-! ### `argmax` lemma for threshold selection -/

theorem argmax_spec (l : List ℚ) (h : l ≠ []) :
    argmax l < l.length ∧
    (∀ j, j < l.length → l.getD j 0 ≤ l.getD (argmax l) 0) ∧
    (∀ j, j < argmax l → l.getD j 0 < l.getD (argmax l) 0) := by
  induction l with
  | nil => exact absurd rfl h
  | cons x t ih =>
    cases t with
    | nil =>
      refine ⟨by simp [argmax], ?_, ?_⟩
      · intro j hj
        have hj0 : j = 0 := by simpa using Nat.lt_one_iff.mp (by simpa using hj)
        subst hj0
        simp [argmax]
      · intro j hj
        simp [argmax] at hj
    | cons y ys =>
      obtain ⟨ihb, ihmax, ihfirst⟩ := ih (by simp)
      by_cases hc : x < (y :: ys).getD (argmax (y :: ys)) 0
      · have hstep : argmax (x :: y :: ys) = argmax (y :: ys) + 1 := by
          simp only [argmax]
          rw [if_pos hc]
        rw [hstep]
        refine ⟨by simpa using Nat.succ_lt_succ ihb, ?_, ?_⟩
        · intro j hj
          rcases j with _ | j'
          · simpa using hc.le
          · simpa using ihmax j' (by simpa using hj)
        · intro j hj
          rcases j with _ | j'
          · simpa using hc
          · simpa using ihfirst j' (by simpa using hj)
      · have hstep : argmax (x :: y :: ys) = 0 := by
          simp only [argmax]
          rw [if_neg hc]
        rw [hstep]
        refine ⟨by simp, ?_, ?_⟩
        · intro j hj
          rcases j with _ | j'
          · simp
          · simpa using (ihmax j' (by simpa using hj)).trans (not_lt.mp hc)
        · intro j hj
          exact absurd hj (by omega)

/-- C6: the selected operating threshold is the negation of the swept
threshold at the index maximizing `TPR - FPR`, and on ties for the
maximum the first index in the swept order is selected (the chosen index
strictly exceeds every earlier value of `TPR - FPR`). -/
theorem threshold_selection (tpr fpr thresholds : List ℚ)
    (hf : fpr.length = tpr.length) (ht : thresholds.length = tpr.length)
    (hne : tpr ≠ []) :
    optimalIdx tpr fpr < thresholds.length ∧
    optimalThreshold tpr fpr thresholds =
      -(thresholds.getD (optimalIdx tpr fpr) 0) ∧
    (∀ j, j < (tpr.zipWith (fun t f => t - f) fpr).length →
      (tpr.zipWith (fun t f => t - f) fpr).getD j 0 ≤
        (tpr.zipWith (fun t f => t - f) fpr).getD (optimalIdx tpr fpr) 0) ∧
    (∀ j, j < optimalIdx tpr fpr →
      (tpr.zipWith (fun t f => t - f) fpr).getD j 0 <
        (tpr.zipWith (fun t f => t - f) fpr).getD (optimalIdx tpr fpr) 0) := by
  have hzlen : (tpr.zipWith (fun t f => t - f) fpr).length = tpr.length := by
    simp [List.length_zipWith, hf]
  have hznil : tpr.zipWith (fun t f => t - f) fpr ≠ [] := by
    intro hc
    apply hne
    have : tpr.length = 0 := by rw [← hzlen, hc]; rfl
    exact List.length_eq_zero.mp this
  obtain ⟨hb, hmax, hfirst⟩ := argmax_spec _ hznil
  refine ⟨?_, rfl, hmax, hfirst⟩
  unfold optimalIdx
  omega

/-- Witness for C6 with a tie: `TPR - FPR = [1, 1]` ties at both indices,
the first swept index is selected, and the threshold is the negation of
the first swept threshold. -/
theorem threshold_selection_witness :
    optimalIdx [1, 1] [0, 0] < ([5, 7] : List ℚ).length ∧
    optimalThreshold [1, 1] [0, 0] [5, 7] =
      -(([5, 7] : List ℚ).getD (optimalIdx [1, 1] [0, 0]) 0) ∧
    optimalIdx [1, 1] [0, 0] = 0 :=
  ⟨(threshold_selection [1, 1] [0, 0] [5, 7] rfl rfl (by simp)).1,
   (threshold_selection [1, 1] [0, 0] [5, 7] rfl rfl (by simp)).2.1,
   by norm_num [optimalIdx, argmax]⟩

/-- C7 counterexample: with one loss-of-function example (fewer than 2)
the calibration code does not fail at all — it returns a full params
record whose `lof_std` is `NaN` (modelled as `none`). The claim that it
fails with `DegenerateDistributionError` is therefore false of the code,
which contains no validation and raises no such error. -/
theorem calibration_no_error_counterexample :
    calibrate [1] [0] [5] [1, 2, 4] [true, false, false] =
      { threshold := -5, lof_std_sq := none, func_std_sq := some 2 } := by
  simp only [calibrate, sampleStdSq, optimalThreshold, optimalIdx, argmax,
    List.zip, List.zipWith, List.filter, ConfidenceParams.mk.injEq]
  norm_num

/-- C7 amended: lines 138–162 perform no input validation and always
produce a params record; a per-class spread is undefined (`NaN`, here
`none`) exactly when that class has fewer than 2 examples, and no
`InsufficientDataError` or `DegenerateDistributionError` is ever
raised. -/
theorem calibration_std_definedness (tpr fpr thresholds deltas : List ℚ)
    (isLOF : List Bool) :
    ((calibrate tpr fpr thresholds deltas isLOF).lof_std_sq = none ↔
      (((deltas.zip isLOF).filter (fun r => r.2)).map Prod.fst).length < 2) ∧
    ((calibrate tpr fpr thresholds deltas isLOF).func_std_sq = none ↔
      (((deltas.zip isLOF).filter (fun r => !r.2)).map Prod.fst).length < 2) := by
  constructor
  · show sampleStdSq _ = none ↔ _
    unfold sampleStdSq
    split
    · simp_all
    · simp_all
  · show sampleStdSq _ = none ↔ _
    unfold sampleStdSq
    split
    · simp_all
    · simp_all

/-- C8: the single-variant endpoint fails if and only if the relative
position `variant_position - 1 - seq_start` falls outside
`[0, length window_seq)`, and on that error the scoring oracle is never
invoked: the result does not depend on the oracle. -/
theorem single_variant_bounds_check (scoreFn : Seq → ℚ) (variant_position : Int)
    (alternative window_seq : Seq) (seq_start : Int) :
    ((∃ e, analyze_single_variant scoreFn variant_position alternative
        window_seq seq_start = .error e) ↔
      (variant_position - 1 - seq_start < 0 ∨
        (window_seq.length : Int) ≤ variant_position - 1 - seq_start)) ∧
    ((variant_position - 1 - seq_start < 0 ∨
        (window_seq.length : Int) ≤ variant_position - 1 - seq_start) →
      ∀ g : Seq → ℚ,
        analyze_single_variant scoreFn variant_position alternative
            window_seq seq_start =
          analyze_single_variant g variant_position alternative
            window_seq seq_start) := by
  have hres : ∀ f : Seq → ℚ,
      analyze_single_variant f variant_position alternative window_seq seq_start =
        if variant_position - 1 - seq_start < 0 ∨
            variant_position - 1 - seq_start ≥ (window_seq.length : Int) then
          .error "Variant position is outside the fetched window"
        else
          .ok (analyze_variant f (variant_position - 1 - seq_start).toNat
            ((window_seq.drop (variant_position - 1 - seq_start).toNat).take 1)
            alternative window_seq) :=
    fun f => rfl
  by_cases hc : variant_position - 1 - seq_start < 0 ∨
      (window_seq.length : Int) ≤ variant_position - 1 - seq_start
  · constructor
    · rw [hres scoreFn, if_pos hc]
      simp
      omega
    · intro _ g
      rw [hres scoreFn, hres g, if_pos hc, if_pos hc]
  · constructor
    · rw [hres scoreFn, if_neg hc]
      simp
      omega
    · intro h
      exact absurd h hc

/-- Witness for C8: an empty fetched window makes every position
out of bounds, so the endpoint fails and ignores the oracle. -/
theorem single_variant_bounds_check_witness :
    (∃ e, analyze_single_variant (fun _ => 0) 7 ['G'] [] 0 = .error e) ∧
    analyze_single_variant (fun _ => 0) 7 ['G'] [] 0 =
      analyze_single_variant (fun _ => 1) 7 ['G'] [] 0 :=
  ⟨(single_variant_bounds_check (fun _ => 0) 7 ['G'] [] 0).1.mpr (by decide),
   (single_variant_bounds_check (fun _ => 0) 7 ['G'] [] 0).2 (by decide) (fun _ => 1)⟩

/-- C9: for every response that parses (status 200): whenever the `dna`
field is present the (possibly short, possibly empty) upper-cased
sequence is returned — a length short of the requested range is only a
warning — while a response with no `dna` field fails with a fatal
error. -/
theorem fetch_response_handling (position : Int) (windowSize : Nat)
    (resp : UcscResponse) (hok : resp.status_code = 200) :
    (∀ s, resp.dna = some s →
      get_genome_sequence position windowSize resp =
        .ok (s.map Char.toUpper, fetchStart position windowSize)) ∧
    (resp.dna = none →
      ∃ e, get_genome_sequence position windowSize resp = .error e) := by
  unfold get_genome_sequence
  rw [if_neg (by simp [hok])]
  constructor
  · intro s hs
    rw [hs]
  · intro hn
    rw [hn]
    exact ⟨_, rfl⟩

/-- Witness for C9: a 2-base response to an (implicitly longer) window
request is still returned, upper-cased, with its start offset. -/
theorem fetch_response_handling_witness :
    get_genome_sequence 5 4 ⟨200, some ['a', 'c'], none⟩ =
      .ok ((['a', 'c'] : Seq).map Char.toUpper, fetchStart 5 4) :=
  (fetch_response_handling 5 4 ⟨200, some ['a', 'c'], none⟩ rfl).1 ['a', 'c'] rfl

/-- C10: in the single-variant fetch path, whenever
`position - 1 ≥ window_size/2` the requested half-open range spans
exactly `window_size + 1` bases, and a full-length response places the
variant at relative position `window_size/2` with exactly
`window_size/2` bases on each side. -/
theorem fetch_window_span (position : Int) (windowSize : Nat)
    (heven : windowSize % 2 = 0)
    (hpos : ((windowSize / 2 : Nat) : Int) ≤ position - 1) :
    fetchEnd position windowSize - fetchStart position windowSize = windowSize + 1 ∧
    ∀ s : Seq, (s.length : Int) =
        fetchEnd position windowSize - fetchStart position windowSize →
      position - 1 - fetchStart position windowSize = ((windowSize / 2 : Nat) : Int) ∧
      (s.length : Int) - (position - 1 - fetchStart position windowSize) - 1 =
        ((windowSize / 2 : Nat) : Int) := by
  unfold fetchStart fetchEnd halfWindow
  constructor
  · omega
  · intro s hs
    constructor <;> omega

/-- Witness for C10 at the default window size 8192: the request spans
8193 bases and a full-length response centers the variant at 4096. -/
theorem fetch_window_span_witness :
    fetchEnd 43119628 8192 - fetchStart 43119628 8192 = 8192 + 1 ∧
    (43119628 : Int) - 1 - fetchStart 43119628 8192 = ((8192 / 2 : Nat) : Int) := by
  have h := fetch_window_span 43119628 8192 (by decide) (by decide)
  refine ⟨h.1, (h.2 (List.replicate 8193 'A') ?_).1⟩
  rw [h.1]
  simp only [List.length_replicate]
  norm_num

end Evo2
